import Mathlib

/-!
Verification of the Stream_assignment ETL pipeline (src/main.py, src/encrypt.py).

Tables are modelled as Lean lists of rows; a pandas DataFrame operation used by
the pipeline becomes a Lean function on such lists:

* `remove_duplicates`     — `df.drop_duplicates()`: drop rows that are exact
  duplicates across all columns, keeping the first occurrence (pandas computes
  a `duplicated(keep='first')` mask by a left-to-right scan over rows already
  seen, which `dedupAux` mirrors with an explicit `seen` accumulator).
* `collapse_users`        — the users branch of `ingest_data`:
  `remove_duplicates(users_df).groupby('Customer ID').agg({'Customer Name':'last',
  'Customer Email':'last'}).reset_index()`; pandas `groupby` sorts the group
  keys ascending and drops rows whose key is null.
* `calculate_total_spending_per_user` — `groupby('Customer ID', as_index=False)['Total'].sum()`.
* `merge_left_on_cid` / `fillna_zero` / `add_total_spending_to_users` —
  `pd.merge(users_df, spending_per_user_df, on='Customer ID', how='left')`
  followed by `['Total Spending'].fillna(0)`.
* `standardize_name`      — the column rename chain of `standardize_column_names`.
* `read_db_config`        — the five configparser lookups.
* `parse_tsv` / `load_tsv_file` — `pd.read_csv` under the existence check.
* `fernetEncrypt` / `fernetDecrypt` — the symbolic (Dolev–Yao) model of the
  `cryptography.fernet` authenticated-encryption scheme used by
  `decrypt_config_file` and `encrypt.py`.
* `run_pipeline`          — the `__main__` orchestration over the three
  `load_tsv_file` results, with a Python exception modelled as `Except.error`.
-/

namespace StreamETL

/-- The left-to-right scan behind pandas `duplicated(keep='first')`: a row is
kept iff it has not been seen earlier in the scan. -/
def dedupAux {α : Type} [DecidableEq α] (seen : List α) : List α → List α
  | [] => []
  | x :: xs => if x ∈ seen then dedupAux seen xs else x :: dedupAux (x :: seen) xs

/-- Model of `remove_duplicates` (src/main.py lines 162–177): `df.drop_duplicates()` —
remove rows that are exact duplicates across all columns, keeping first
occurrences in order.  (The source also logs the removed-row count; logging is
outside the row model.) -/
def remove_duplicates {α : Type} [DecidableEq α] (df : List α) : List α :=
  dedupAux [] df

/-- Index of the first occurrence of `a` in a list (length of the list when
absent); used to state first-occurrence ordering. -/
def firstIdx {α : Type} [DecidableEq α] (a : α) : List α → Nat
  | [] => 0
  | x :: xs => if x = a then 0 else firstIdx a xs + 1

/-- Strictly-sorted insertion keeping one copy per key; `sortedKeys` below
models the sorted distinct group keys produced by pandas `groupby`
(`sort=True` default). -/
def insertKey {α : Type} [LinearOrder α] (k : α) : List α → List α
  | [] => [k]
  | x :: xs => if k < x then k :: x :: xs else if k = x then x :: xs else x :: insertKey k xs

/-- The ascending list of distinct keys of a column, as pandas `groupby`
produces group labels. -/
def sortedKeys {α : Type} [LinearOrder α] (l : List α) : List α :=
  l.foldr insertKey []

/-- Model of `calculate_total_spending_per_user` (src/main.py lines 180–194):
`transactions_df.groupby('Customer ID', as_index=False)['Total'].sum()` with the
`Total` column renamed to `Total Spending`.  A transaction row is
(Customer ID, Total); the result lists each distinct Customer ID (ascending, as
`groupby` sorts keys) with the sum of its `Total` values. -/
def calculate_total_spending_per_user (transactions_df : List (Int × Int)) : List (Int × Int) :=
  (sortedKeys (transactions_df.map Prod.fst)).map
    (fun k => (k, ((transactions_df.filter (fun t => t.1 = k)).map Prod.snd).sum))

/-- Model of `pd.merge(users_df, spending_per_user_df, on='Customer ID', how='left')`:
each left row in order, paired with every matching right row (in right order),
or with a null spending value when no right row matches.  `β` is the rest of a
user row beyond the Customer ID column. -/
def merge_left_on_cid {β : Type} (users_df : List (Int × β)) (spending : List (Int × Int)) :
    List (Int × β × Option Int) :=
  users_df.flatMap (fun u =>
    let ms := spending.filter (fun a => a.1 = u.1)
    if ms.isEmpty then [(u.1, u.2, none)]
    else ms.map (fun a => (u.1, u.2, some a.2)))

/-- Model of `updated_users_df['Total Spending'].fillna(0)`. -/
def fillna_zero {β : Type} (df : List (Int × β × Option Int)) : List (Int × β × Int) :=
  df.map (fun r => (r.1, r.2.1, r.2.2.getD 0))

/-- Model of `add_total_spending_to_users` (src/main.py lines 197–214): the left merge
followed by zero-filling the `Total Spending` column. -/
def add_total_spending_to_users {β : Type} (users_df : List (Int × β))
    (spending : List (Int × Int)) : List (Int × β × Int) :=
  fillna_zero (merge_left_on_cid users_df spending)

/-- First-match lookup of a Customer ID's aggregated spending, used to state
what the merge produces for each user row. -/
def lookupSpend (c : Int) : List (Int × Int) → Option Int
  | [] => none
  | a :: as => if a.1 = c then some a.2 else lookupSpend c as

/-- A users row: Customer ID (null allowed, as pandas NaN), Customer Name,
Customer Email, and the remaining columns of the row collapsed into `extra`. -/
structure URow where
  cid : Option Int
  name : String
  email : String
  extra : String
deriving DecidableEq

/-- A collapsed users row: exactly the columns Customer ID, Customer Name and
Customer Email that survive `groupby(...).agg(...).reset_index()`. -/
structure CRow where
  cid : Int
  name : String
  email : String
deriving DecidableEq

/-- The users branch of `ingest_data` (src/main.py lines 116–120):
`remove_duplicates(users_df, 'users_df').groupby('Customer ID').agg({'Customer Name': 'last', 'Customer Email': 'last'}).reset_index()`.
pandas `groupby` drops rows whose key is null, sorts the distinct keys
ascending, and the `'last'` aggregation keeps each group's last row in the
deduplicated frame's order. -/
def collapse_users (users_df : List URow) : List CRow :=
  (sortedKeys ((remove_duplicates users_df).filterMap (fun r => r.cid))).filterMap
    (fun k => (((remove_duplicates users_df).filter (fun r => r.cid = some k)).getLast?).map
      (fun r => ⟨k, r.name, r.email⟩))

/-- A column name as its list of character code points (Python `str`): space is
32, underscore 95, parentheses 40 and 41, A–Z are 65–90. -/
abbrev ColName := List Nat

/-- Python `str.lower()` on one character code point (ASCII range, which covers
every column name in the sources). -/
def pyLowerChar (n : Nat) : Nat := if 65 ≤ n ∧ n ≤ 90 then n + 32 else n

/-- The rename chain of `standardize_column_names` (src/main.py lines 226–240)
on one column name: `.str.replace(' ', '_').str.replace('(', '').str.replace(')', '').str.lower()`. -/
def standardize_name (s : ColName) : ColName :=
  (((s.map (fun c => if c = 32 then 95 else c)).filter (fun c => c ≠ 40)).filter
      (fun c => c ≠ 41)).map pyLowerChar

/-- Model of `standardize_column_names` applied to a frame's column list. -/
def standardize_column_names (cols : List ColName) : List ColName :=
  cols.map standardize_name

/-- A string literal as its code-point list, to state concrete examples. -/
def strCodes (s : String) : ColName := s.toList.map Char.toNat

/-- First-occurrence association lookup: configparser section and key access. -/
def lookupAssoc {β : Type} (k : String) : List (String × β) → Option β
  | [] => none
  | p :: ps => if p.1 = k then some p.2 else lookupAssoc k ps

/-- The five connection parameters, all plain strings (no type coercion: the
port stays in its literal string form). -/
structure DbConfig where
  user : String
  password : String
  host : String
  port : String
  database : String
deriving DecidableEq

/-- An INI document as configparser exposes it: sections in order, each a list
of key/value string pairs. -/
abbrev IniDoc := List (String × List (String × String))

/-- Model of `read_db_config` (src/main.py lines 38–61): the five accesses
`config['postgresql'][k]` for user, password, host, port, database; a missing
section or key raises `KeyError`, modelled as `none`. -/
def read_db_config (doc : IniDoc) : Option DbConfig := do
  let sec ← lookupAssoc "postgresql" doc
  let u ← lookupAssoc "user" sec
  let pw ← lookupAssoc "password" sec
  let h ← lookupAssoc "host" sec
  let po ← lookupAssoc "port" sec
  let db ← lookupAssoc "database" sec
  pure ⟨u, pw, h, po, db⟩

/-- The tabular result of `pd.read_csv`: header-declared column names and the
data rows in file order. -/
structure RawTable where
  cols : List String
  rows : List (List String)
deriving DecidableEq

/-- Model of `pd.read_csv(file_path, delimiter=delimiter)` on the file's lines: the
first line declares the column names; every following line is one row, in file
order.  An empty file raises `EmptyDataError`, which `load_tsv_file` catches;
modelled as `none`. -/
def parse_tsv (delimiter : String) (lines : List String) : Option RawTable :=
  match lines with
  | [] => none
  | header :: rest => some ⟨header.splitOn delimiter, rest.map (fun r => r.splitOn delimiter)⟩

/-- Model of `load_tsv_file` (src/main.py lines 64–85).  The file system is a
partial map from paths to file lines; a path failing `os.path.exists`, or the read
raising, is logged and yields `None` — the function itself never raises (it is
total by construction). -/
def load_tsv_file (fs : String → Option (List String)) (file_path : String) :
    Option RawTable :=
  match fs file_path with
  | none => none
  | some lines => parse_tsv "\t" lines

/-- Symbolic AES-128-CBC ciphertext, the encryption step of the
`cryptography.fernet` scheme, as a free constructor (Dolev–Yao model: two
ciphertexts coincide exactly when key, IV and plaintext coincide, and
decryption with the wrong key or IV yields a padding failure). -/
inductive CipherText : Type
  | aesCbc (encKey : List Nat) (iv : List Nat) (plain : List Nat)
deriving DecidableEq

/-- Symbolic HMAC-SHA256 over a Fernet token's header and ciphertext. -/
inductive AuthTag : Type
  | hmacSha256 (signKey : List Nat) (msg : Nat × Nat × List Nat × CipherText)
deriving DecidableEq

/-- A Fernet key: the 32-byte secret split into its signing and encryption
halves. -/
structure FernetKey where
  signKey : List Nat
  encKey : List Nat
deriving DecidableEq

/-- A Fernet token: version byte 0x80, timestamp, IV, ciphertext, HMAC tag. -/
structure FernetToken where
  version : Nat
  timestamp : Nat
  iv : List Nat
  ct : CipherText
  tag : AuthTag
deriving DecidableEq

/-- Model of `cryptography.fernet.InvalidToken` (the spec's `DecryptionError`). -/
inductive DecryptionError : Type
  | invalidToken
deriving DecidableEq

/-- Model of `Fernet(key).encrypt(config_data)` (src/encrypt.py lines 14–20): build the
token over a fresh IV and the current timestamp and append the HMAC over the
whole header and ciphertext. -/
def fernetEncrypt (key : FernetKey) (iv : List Nat) (timestamp : Nat)
    (doc : List Nat) : FernetToken :=
  let ct := CipherText.aesCbc key.encKey iv doc
  ⟨128, timestamp, iv, ct, AuthTag.hmacSha256 key.signKey (128, timestamp, iv, ct)⟩

/-- Model of `Fernet(key).decrypt(token)`: check the version byte, recompute and compare
the HMAC with the signing half, then AES-decrypt with the encryption half and
the token's IV; any failure raises `InvalidToken`. -/
def fernetDecrypt (key : FernetKey) (token : FernetToken) :
    Except DecryptionError (List Nat) :=
  if token.version ≠ 128 then Except.error DecryptionError.invalidToken
  else if token.tag ≠ AuthTag.hmacSha256 key.signKey
      (token.version, token.timestamp, token.iv, token.ct) then
    Except.error DecryptionError.invalidToken
  else
    match token.ct with
    | CipherText.aesCbc k iv p =>
      if k = key.encKey ∧ iv = token.iv then Except.ok p
      else Except.error DecryptionError.invalidToken

/-- Model of `decrypt_config_file` (src/main.py lines 14–35): read the encrypted blob at
the path and Fernet-decrypt it with the key (`None` when the path is absent;
the final `.decode()` is the identity on code points). -/
def decrypt_config_file (fs : String → Option FernetToken) (encrypted_file : String)
    (key : FernetKey) : Option (Except DecryptionError (List Nat)) :=
  (fs encrypted_file).map (fun blob => fernetDecrypt key blob)

/-- The `__main__` orchestration (src/main.py lines 299–321) over the three raw
load results.  `ingest_data` (lines 102–122) guards each per-table transform
with an `is not None` check, but `__main__` then calls
`calculate_total_spending_per_user(transactions_df)`,
`add_total_spending_to_users(users_df, ...)` and
`save_to_postgres(engine, products_df, 'dim_product', ...)` unconditionally; on
a `None` table those raise (`None.groupby`, `pd.merge(None, ...)`,
`None.columns` inside `standardize_column_names`), modelled as `Except.error`
naming the failing call.  Products rows are an arbitrary row type; a
transaction row is (Customer ID, Total) — `convert_date_format` rewrites only
the Date (UTC) column's values under the same `is not None` guard and is
omitted from the row model. -/
def run_pipeline {α : Type} [DecidableEq α] (products : Option (List α))
    (transactions : Option (List (Int × Int))) (users : Option (List URow)) :
    Except String (List α × List (Int × Int) × List (Int × (String × String) × Int)) :=
  let products_df := products.map (fun d => remove_duplicates d)
  let transactions_df := transactions.map (fun d => remove_duplicates d)
  let users_df := users.map collapse_users
  match transactions_df with
  | none => Except.error "calculate_total_spending_per_user: transactions_df is None"
  | some t =>
    let spending := calculate_total_spending_per_user t
    match users_df with
    | none => Except.error "add_total_spending_to_users: users_df is None"
    | some u =>
      let updated :=
        add_total_spending_to_users (u.map (fun c => (c.cid, (c.name, c.email)))) spending
      match products_df with
      | none => Except.error "save_to_postgres: products_df is None"
      | some p => Except.ok (p, t, updated)

theorem mem_dedupAux {α : Type} [DecidableEq α] {a : α} :
    ∀ (l seen : List α), a ∈ dedupAux seen l ↔ a ∈ l ∧ a ∉ seen := by
  intro l
  induction l with
  | nil => intro seen; simp [dedupAux]
  | cons x xs ih =>
    intro seen
    by_cases hx : x ∈ seen
    · simp only [dedupAux, if_pos hx, ih, List.mem_cons]
      constructor
      · rintro ⟨ha, hs⟩; exact ⟨Or.inr ha, hs⟩
      · rintro ⟨ha | ha, hs⟩
        · exact absurd (ha ▸ hx) hs
        · exact ⟨ha, hs⟩
    · simp only [dedupAux, if_neg hx, List.mem_cons, ih]
      constructor
      · rintro (rfl | ⟨ha, hs⟩)
        · exact ⟨Or.inl rfl, hx⟩
        · exact ⟨Or.inr ha, fun h => hs (Or.inr h)⟩
      · rintro ⟨rfl | ha, hs⟩
        · exact Or.inl rfl
        · by_cases hax : a = x
          · exact Or.inl hax
          · exact Or.inr ⟨ha, fun h => h.elim hax hs⟩

theorem dedupAux_sublist {α : Type} [DecidableEq α] :
    ∀ (l seen : List α), (dedupAux seen l).Sublist l := by
  intro l
  induction l with
  | nil => intro seen; simp [dedupAux]
  | cons x xs ih =>
    intro seen
    by_cases hx : x ∈ seen
    · simpa [dedupAux, if_pos hx] using (ih seen).cons x
    · simpa [dedupAux, if_neg hx] using (ih (x :: seen)).cons₂ x

theorem pairwise_imp_of_mem {α : Type} {R S : α → α → Prop} :
    ∀ {l : List α}, (∀ a ∈ l, ∀ b ∈ l, R a b → S a b) → l.Pairwise R → l.Pairwise S := by
  intro l
  induction l with
  | nil => intro _ _; exact List.Pairwise.nil
  | cons x xs ih =>
    intro h hp
    rcases List.pairwise_cons.mp hp with ⟨hx, hxs⟩
    refine List.pairwise_cons.mpr ⟨?_, ?_⟩
    · intro b hb
      exact h x (List.mem_cons_self x xs) b (List.mem_cons_of_mem _ hb) (hx b hb)
    · exact ih (fun a ha b hb => h a (List.mem_cons_of_mem _ ha) b (List.mem_cons_of_mem _ hb)) hxs

theorem firstIdx_cons_ne {α : Type} [DecidableEq α] {x a : α} (l : List α)
    (h : x ≠ a) : firstIdx a (x :: l) = firstIdx a l + 1 := by
  simp [firstIdx, h]

theorem pairwise_firstIdx_dedupAux {α : Type} [DecidableEq α] :
    ∀ (l seen : List α),
      (dedupAux seen l).Pairwise (fun a b => firstIdx a l < firstIdx b l) := by
  intro l
  induction l with
  | nil => intro seen; simp [dedupAux]
  | cons x xs ih =>
    intro seen
    by_cases hx : x ∈ seen
    · rw [dedupAux, if_pos hx]
      refine pairwise_imp_of_mem ?_ (ih seen)
      intro a ha b hb hab
      have hane : x ≠ a := fun h => ((mem_dedupAux xs seen).mp ha).2 (h ▸ hx)
      have hbne : x ≠ b := fun h => ((mem_dedupAux xs seen).mp hb).2 (h ▸ hx)
      rw [firstIdx_cons_ne xs hane, firstIdx_cons_ne xs hbne]
      omega
    · rw [dedupAux, if_neg hx]
      refine List.pairwise_cons.mpr ⟨?_, ?_⟩
      · intro b hb
        have hbne : x ≠ b := fun h =>
          ((mem_dedupAux xs (x :: seen)).mp hb).2 (h ▸ List.mem_cons_self x seen)
        rw [firstIdx_cons_ne xs hbne]
        simp [firstIdx]
      · refine pairwise_imp_of_mem ?_ (ih (x :: seen))
        intro a ha b hb hab
        have hane : x ≠ a := fun h =>
          ((mem_dedupAux xs (x :: seen)).mp ha).2 (h ▸ List.mem_cons_self x seen)
        have hbne : x ≠ b := fun h =>
          ((mem_dedupAux xs (x :: seen)).mp hb).2 (h ▸ List.mem_cons_self x seen)
        rw [firstIdx_cons_ne xs hane, firstIdx_cons_ne xs hbne]
        omega

theorem nodup_dedupAux {α : Type} [DecidableEq α] (l seen : List α) :
    (dedupAux seen l).Nodup := by
  refine pairwise_imp_of_mem ?_ (pairwise_firstIdx_dedupAux l seen)
  rintro a - b - hab rfl
  exact Nat.lt_irrefl _ hab

theorem dedupAux_of_nodup {α : Type} [DecidableEq α] :
    ∀ (l seen : List α), l.Nodup → (∀ a ∈ l, a ∉ seen) → dedupAux seen l = l := by
  intro l
  induction l with
  | nil => intro seen _ _; rfl
  | cons x xs ih =>
    intro seen hnd hdis
    rcases List.pairwise_cons.mp hnd with ⟨hx, hxs⟩
    rw [dedupAux, if_neg (hdis x (List.mem_cons_self x xs))]
    congr 1
    refine ih (x :: seen) hxs ?_
    intro a ha hmem
    rcases List.mem_cons.mp hmem with rfl | hmem'
    · exact hx a ha rfl
    · exact hdis a (List.mem_cons_of_mem _ ha) hmem'

theorem remove_duplicates_idem {α : Type} [DecidableEq α] (l : List α) :
    remove_duplicates (remove_duplicates l) = remove_duplicates l :=
  dedupAux_of_nodup _ [] (nodup_dedupAux l []) (by simp)

theorem mem_remove_duplicates {α : Type} [DecidableEq α] {a : α} (l : List α) :
    a ∈ remove_duplicates l ↔ a ∈ l := by
  simp [remove_duplicates, mem_dedupAux]

theorem mem_insertKey {α : Type} [LinearOrder α] {a k : α} :
    ∀ l : List α, a ∈ insertKey k l ↔ a = k ∨ a ∈ l := by
  intro l
  induction l with
  | nil => simp [insertKey]
  | cons x xs ih =>
    simp only [insertKey]
    by_cases h1 : k < x
    · rw [if_pos h1]
      simp [List.mem_cons]
    · rw [if_neg h1]
      by_cases h2 : k = x
      · subst h2
        rw [if_pos rfl]
        simp [List.mem_cons]
      · rw [if_neg h2]
        simp [List.mem_cons, ih]
        tauto

theorem sorted_insertKey {α : Type} [LinearOrder α] {k : α} :
    ∀ l : List α, l.Pairwise (· < ·) → (insertKey k l).Pairwise (· < ·) := by
  intro l
  induction l with
  | nil => intro _; simp [insertKey]
  | cons x xs ih =>
    intro hp
    rcases List.pairwise_cons.mp hp with ⟨hx, hxs⟩
    simp only [insertKey]
    by_cases h1 : k < x
    · rw [if_pos h1]
      refine List.pairwise_cons.mpr ⟨?_, hp⟩
      intro b hb
      rcases List.mem_cons.mp hb with rfl | hb'
      · exact h1
      · exact lt_trans h1 (hx b hb')
    · rw [if_neg h1]
      by_cases h2 : k = x
      · rw [if_pos h2]; exact hp
      · rw [if_neg h2]
        have hxk : x < k := lt_of_le_of_ne (not_lt.mp h1) (fun he => h2 he.symm)
        refine List.pairwise_cons.mpr ⟨?_, ih hxs⟩
        intro b hb
        rcases (mem_insertKey xs).mp hb with rfl | hb'
        · exact hxk
        · exact hx b hb'

theorem sorted_sortedKeys {α : Type} [LinearOrder α] :
    ∀ l : List α, (sortedKeys l).Pairwise (· < ·) := by
  intro l
  induction l with
  | nil => simp [sortedKeys]
  | cons x xs ih => exact sorted_insertKey _ ih

theorem mem_sortedKeys {α : Type} [LinearOrder α] {a : α} :
    ∀ l : List α, a ∈ sortedKeys l ↔ a ∈ l := by
  intro l
  induction l with
  | nil => simp [sortedKeys]
  | cons x xs ih =>
    show a ∈ insertKey x (sortedKeys xs) ↔ _
    rw [mem_insertKey]
    simp [List.mem_cons, ih]

theorem nodup_sortedKeys {α : Type} [LinearOrder α] (l : List α) :
    (sortedKeys l).Nodup :=
  pairwise_imp_of_mem (fun _ _ b _ hab heq => absurd (heq ▸ hab) (lt_irrefl b))
    (sorted_sortedKeys l)

theorem map_fst_spending (df : List (Int × Int)) :
    (calculate_total_spending_per_user df).map Prod.fst = sortedKeys (df.map Prod.fst) := by
  unfold calculate_total_spending_per_user
  rw [List.map_map]
  generalize sortedKeys (df.map Prod.fst) = L
  induction L with
  | nil => rfl
  | cons x xs ih =>
    rw [List.map_cons, ih]
    rfl

/-- C2: `calculate_total_spending_per_user` groups the transaction rows by
Customer ID and sums the Total field, producing exactly one output row per
distinct Customer ID present in the input (its value being that customer's
summed Total), and on [(1,100),(2,200),(2,200),(3,300)] the result maps
1 ↦ 100, 2 ↦ 400, 3 ↦ 300. -/
theorem c2_spending_groups_by_customer (transactions_df : List (Int × Int)) :
    ((calculate_total_spending_per_user transactions_df).map Prod.fst).Nodup ∧
    (∀ k : Int, k ∈ (calculate_total_spending_per_user transactions_df).map Prod.fst ↔
      k ∈ transactions_df.map Prod.fst) ∧
    (∀ p ∈ calculate_total_spending_per_user transactions_df,
      p.2 = ((transactions_df.filter (fun t => t.1 = p.1)).map Prod.snd).sum) ∧
    calculate_total_spending_per_user [(1, 100), (2, 200), (2, 200), (3, 300)] =
      [(1, 100), (2, 400), (3, 300)] := by
  refine ⟨?_, ?_, ?_, by decide⟩
  · rw [map_fst_spending]; exact nodup_sortedKeys _
  · intro k; rw [map_fst_spending, mem_sortedKeys]
  · intro p hp
    rcases List.mem_map.mp hp with ⟨k, _, hpe⟩
    subst hpe
    rfl

/-- Witness for C2 at the claim's concrete transactions table. -/
theorem c2_spending_groups_by_customer_witness :
    (2 : Int) ∈ (calculate_total_spending_per_user
      [((1 : Int), (100 : Int)), (2, 200), (2, 200), (3, 300)]).map Prod.fst :=
  ((c2_spending_groups_by_customer [(1, 100), (2, 200), (2, 200), (3, 300)]).2.1 2).mpr
    (by decide)

theorem filter_eq_nil_of_not_mem_keys (c : Int) :
    ∀ agg : List (Int × Int), c ∉ agg.map Prod.fst →
      agg.filter (fun a => a.1 = c) = [] := by
  intro agg
  induction agg with
  | nil => intro _; rfl
  | cons a as ih =>
    intro h
    have h1 : ¬(a.1 = c) := fun he =>
      h (by rw [List.map_cons]; exact List.mem_cons.mpr (Or.inl he.symm))
    rw [List.filter_cons_of_neg (by simpa using h1)]
    exact ih (fun hc => h (by rw [List.map_cons]; exact List.mem_cons_of_mem _ hc))

theorem lookupSpend_cons (c : Int) (a : Int × Int) (as : List (Int × Int)) :
    lookupSpend c (a :: as) = if a.1 = c then some a.2 else lookupSpend c as := rfl

theorem filter_keys_nodup (spending : List (Int × Int))
    (hnd : (spending.map Prod.fst).Nodup) (c : Int) :
    spending.filter (fun a => a.1 = c) =
      (match lookupSpend c spending with
       | none => []
       | some v => [(c, v)]) := by
  induction spending with
  | nil => rfl
  | cons a as ih =>
    obtain ⟨a1, a2⟩ := a
    rw [List.map_cons] at hnd
    rcases List.pairwise_cons.mp hnd with ⟨ha, has⟩
    by_cases h1 : a1 = c
    · subst h1
      have hout : a1 ∉ as.map Prod.fst := fun hc => ha a1 hc rfl
      rw [List.filter_cons_of_pos (by simp),
        filter_eq_nil_of_not_mem_keys a1 as hout, lookupSpend_cons, if_pos rfl]
    · rw [List.filter_cons_of_neg (by simpa using h1), lookupSpend_cons, if_neg h1]
      exact ih has

theorem merge_head_eq {β : Type} (u : Int × β) (spending : List (Int × Int))
    (hnd : (spending.map Prod.fst).Nodup) :
    (if (spending.filter (fun a => a.1 = u.1)).isEmpty
        then [(u.1, u.2, (none : Option Int))]
        else (spending.filter (fun a => a.1 = u.1)).map
          (fun a => (u.1, u.2, some a.2))).map
        (fun r => (r.1, r.2.1, r.2.2.getD 0))
      = [(u.1, u.2, (lookupSpend u.1 spending).getD 0)] := by
  rw [filter_keys_nodup spending hnd u.1]
  cases h : lookupSpend u.1 spending with
  | none => rfl
  | some v => rfl

theorem add_total_eq_map {β : Type} (users_df : List (Int × β))
    (spending : List (Int × Int)) (hnd : (spending.map Prod.fst).Nodup) :
    add_total_spending_to_users users_df spending =
      users_df.map (fun u => (u.1, u.2, (lookupSpend u.1 spending).getD 0)) := by
  induction users_df with
  | nil => rfl
  | cons u us ih =>
    have ih' : (merge_left_on_cid us spending).map (fun r => (r.1, r.2.1, r.2.2.getD 0))
        = us.map (fun u => (u.1, u.2, (lookupSpend u.1 spending).getD 0)) := ih
    show ((if (spending.filter (fun a => a.1 = u.1)).isEmpty
        then [(u.1, u.2, (none : Option Int))]
        else (spending.filter (fun a => a.1 = u.1)).map
          (fun a => (u.1, u.2, some a.2))) ++ merge_left_on_cid us spending).map
        (fun r => (r.1, r.2.1, r.2.2.getD 0))
      = (u.1, u.2, (lookupSpend u.1 spending).getD 0)
        :: us.map (fun u => (u.1, u.2, (lookupSpend u.1 spending).getD 0))
    rw [List.map_append, merge_head_eq u spending hnd, ih']
    rfl

/-- C1: for every users table and every spending aggregate with unique
Customer IDs, `add_total_spending_to_users` left-joins the aggregate onto the
users by Customer ID, keeping every user row in order (the output is exactly
the user rows, so the row count is preserved with no row duplicated or
dropped) and setting Total Spending to the aggregate's value, or 0 for a user
with no entry in the aggregate; in particular for users
{1 ↦ Alice, 2 ↦ Bob, 3 ↦ Charlie} and aggregate {1 ↦ 100, 2 ↦ 200} the merged
Total Spending values are 100, 200, 0. -/
theorem c1_merge_preserves_users :
    (∀ {β : Type} (users_df : List (Int × β)) (spending : List (Int × Int)),
      (spending.map Prod.fst).Nodup →
      add_total_spending_to_users users_df spending =
        users_df.map (fun u => (u.1, u.2, (lookupSpend u.1 spending).getD 0)) ∧
      (add_total_spending_to_users users_df spending).length = users_df.length) ∧
    add_total_spending_to_users [((1 : Int), "Alice"), (2, "Bob"), (3, "Charlie")]
        [((1 : Int), (100 : Int)), (2, 200)] =
      [(1, "Alice", (100 : Int)), (2, "Bob", 200), (3, "Charlie", 0)] := by
  constructor
  · intro β users_df spending hnd
    refine ⟨add_total_eq_map users_df spending hnd, ?_⟩
    rw [add_total_eq_map users_df spending hnd, List.length_map]
  · rfl

/-- Witness for C1 at the claim's concrete users table and aggregate. -/
theorem c1_merge_preserves_users_witness :
    (add_total_spending_to_users [((1 : Int), "Alice"), (2, "Bob"), (3, "Charlie")]
        [((1 : Int), (100 : Int)), (2, 200)]).length =
      [((1 : Int), "Alice"), (2, "Bob"), (3, "Charlie")].length :=
  (c1_merge_preserves_users.1 [((1 : Int), "Alice"), (2, "Bob"), (3, "Charlie")]
      [((1 : Int), (100 : Int)), (2, 200)] (by decide)).2

/-- C4: `remove_duplicates` is idempotent, never lengthens the table, returns
only rows of the input, returns no two fully identical rows, and keeps the
surviving rows in the order of their first occurrence in the input: along the
output, the first-occurrence indices in the input are strictly increasing. -/
theorem c4_remove_duplicates_properties {α : Type} [DecidableEq α] (df : List α) :
    remove_duplicates (remove_duplicates df) = remove_duplicates df ∧
    (remove_duplicates df).length ≤ df.length ∧
    (∀ x ∈ remove_duplicates df, x ∈ df) ∧
    (remove_duplicates df).Nodup ∧
    (remove_duplicates df).Pairwise (fun a b => firstIdx a df < firstIdx b df) :=
  ⟨remove_duplicates_idem df, (dedupAux_sublist df []).length_le,
   fun _ hx => (mem_remove_duplicates df).mp hx, nodup_dedupAux df [],
   pairwise_firstIdx_dedupAux df []⟩

/-- Witness for C4 on the concrete table [1, 2, 2, 3]. -/
theorem c4_remove_duplicates_properties_witness :
    (2 : Int) ∈ [(1 : Int), 2, 2, 3] :=
  (c4_remove_duplicates_properties [(1 : Int), 2, 2, 3]).2.2.1 2 (by decide)

theorem standardize_name_eq (s : ColName) :
    standardize_name s =
      (s.filter (fun c => c ≠ 40 ∧ c ≠ 41)).map
        (fun c => pyLowerChar (if c = 32 then 95 else c)) := by
  induction s with
  | nil => rfl
  | cons c cs ih =>
    unfold standardize_name at *
    by_cases h40 : c = 40
    · subst h40
      rw [List.map_cons, if_neg (by decide), List.filter_cons_of_neg (by decide),
        List.filter_cons_of_neg (by decide)]
      exact ih
    · by_cases h41 : c = 41
      · subst h41
        rw [List.map_cons, if_neg (by decide), List.filter_cons_of_pos (by decide),
          List.filter_cons_of_neg (by decide), List.filter_cons_of_neg (by decide)]
        exact ih
      · by_cases h32 : c = 32
        · subst h32
          rw [List.map_cons, if_pos rfl, List.filter_cons_of_pos (by decide),
            List.filter_cons_of_pos (by decide), List.map_cons,
            List.filter_cons_of_pos (by decide), List.map_cons, if_pos rfl]
          rw [ih]
        · rw [List.map_cons, if_neg h32,
            List.filter_cons_of_pos (by simpa using h40),
            List.filter_cons_of_pos (by simpa using h41), List.map_cons,
            List.filter_cons_of_pos (by simp [h40, h41]), List.map_cons, if_neg h32]
          rw [ih]

theorem standardize_name_no_special (s : ColName) :
    ∀ c ∈ standardize_name s, c ≠ 32 ∧ c ≠ 40 ∧ c ≠ 41 ∧ ¬(65 ≤ c ∧ c ≤ 90) := by
  rw [standardize_name_eq]
  intro c hc
  rcases List.mem_map.mp hc with ⟨c0, hc0, rfl⟩
  have hp : c0 ≠ 40 ∧ c0 ≠ 41 := by simpa using List.of_mem_filter hc0
  rcases hp with ⟨h40, h41⟩
  by_cases h32 : c0 = 32
  · subst h32
    decide
  · rw [if_neg h32]
    unfold pyLowerChar
    split_ifs with hU
    · omega
    · exact ⟨h32, h40, h41, hU⟩

/-- C7: `standardize_column_names` replaces each space with an underscore,
removes all parenthesis characters, and lowercases the result: on every column
name it equals parenthesis removal followed by underscore-for-space and ASCII
lowercasing of each remaining character, so the output contains no space,
no parenthesis and no uppercase letter; "Date (UTC)" becomes "date_utc" and
"Customer ID" becomes "customer_id". -/
theorem c7_standardize_column_names (s : ColName) :
    standardize_name s =
      (s.filter (fun c => c ≠ 40 ∧ c ≠ 41)).map
        (fun c => pyLowerChar (if c = 32 then 95 else c)) ∧
    (∀ c ∈ standardize_name s, c ≠ 32 ∧ c ≠ 40 ∧ c ≠ 41 ∧ ¬(65 ≤ c ∧ c ≤ 90)) ∧
    standardize_column_names [strCodes "Date (UTC)", strCodes "Customer ID"] =
      [strCodes "date_utc", strCodes "customer_id"] :=
  ⟨standardize_name_eq s, standardize_name_no_special s, by decide⟩

/-- Witness for C7: the properties instantiated at the character 'd' (100) of
the standardized "Date (UTC)". -/
theorem c7_standardize_column_names_witness :
    (100 : Nat) ≠ 32 ∧ (100 : Nat) ≠ 40 ∧ (100 : Nat) ≠ 41 ∧
      ¬(65 ≤ (100 : Nat) ∧ (100 : Nat) ≤ 90) :=
  (c7_standardize_column_names (strCodes "Date (UTC)")).2.1 100 (by decide)

/-- C8: `read_db_config` succeeds and returns all five connection parameters
(user, password, host, port, database — port in its literal string form)
exactly when the document contains the 'postgresql' section with all five keys
present, and fails (a `KeyError`, modelled as `none`) whenever the section or
any one of the five keys is absent. -/
theorem c8_read_db_config (doc : IniDoc) :
    ((read_db_config doc).isSome ↔
      ∃ sec, lookupAssoc "postgresql" doc = some sec ∧
        (lookupAssoc "user" sec).isSome ∧ (lookupAssoc "password" sec).isSome ∧
        (lookupAssoc "host" sec).isSome ∧ (lookupAssoc "port" sec).isSome ∧
        (lookupAssoc "database" sec).isSome) ∧
    (∀ (sec : List (String × String)) (u pw h po db : String),
      lookupAssoc "postgresql" doc = some sec →
      lookupAssoc "user" sec = some u →
      lookupAssoc "password" sec = some pw →
      lookupAssoc "host" sec = some h →
      lookupAssoc "port" sec = some po →
      lookupAssoc "database" sec = some db →
      read_db_config doc = some ⟨u, pw, h, po, db⟩) := by
  constructor
  · simp only [read_db_config, Option.isSome_iff_exists, Option.bind_eq_bind,
      Option.bind_eq_some, Option.pure_def, Option.some.injEq]
    constructor
    · rintro ⟨cfg, sec, hsec, u, hu, pw, hpw, h, hh, po, hpo, db, hdb, -⟩
      exact ⟨sec, hsec, ⟨u, hu⟩, ⟨pw, hpw⟩, ⟨h, hh⟩, ⟨po, hpo⟩, ⟨db, hdb⟩⟩
    · rintro ⟨sec, hsec, ⟨u, hu⟩, ⟨pw, hpw⟩, ⟨h, hh⟩, ⟨po, hpo⟩, ⟨db, hdb⟩⟩
      exact ⟨⟨u, pw, h, po, db⟩, sec, hsec, u, hu, pw, hpw, h, hh, po, hpo, db, hdb, rfl⟩
  · intro sec u pw h po db hsec hu hpw hh hpo hdb
    simp [read_db_config, hsec, hu, hpw, hh, hpo, hdb]

/-- Witness for C8 on the configuration document used by the repository's own
test (`test_read_db_config`). -/
theorem c8_read_db_config_witness :
    read_db_config
        [("postgresql",
          [("user", "postgres"), ("password", "secret"), ("host", "localhost"),
           ("port", "5432"), ("database", "test_db")])] =
      some ⟨"postgres", "secret", "localhost", "5432", "test_db"⟩ :=
  (c8_read_db_config _).2
    [("user", "postgres"), ("password", "secret"), ("host", "localhost"),
     ("port", "5432"), ("database", "test_db")]
    "postgres" "secret" "localhost" "5432" "test_db"
    (by decide) (by decide) (by decide) (by decide) (by decide) (by decide)

/-- C6: `load_tsv_file` never raises — it is a total function that returns the
absent result (`None`, after logging) when the path does not exist or the file
cannot be parsed (an empty file raises pandas `EmptyDataError`, caught by the
`except` clause), and on success returns the table whose column names are the
header-declared fields and whose rows keep the source order. -/
theorem c6_load_tsv_file (fs : String → Option (List String)) (file_path : String) :
    (fs file_path = none → load_tsv_file fs file_path = none) ∧
    (fs file_path = some [] → load_tsv_file fs file_path = none) ∧
    (∀ (header : String) (rest : List String), fs file_path = some (header :: rest) →
      load_tsv_file fs file_path =
        some ⟨header.splitOn "\t", rest.map (fun r => r.splitOn "\t")⟩) := by
  refine ⟨?_, ?_, ?_⟩
  · intro h; simp [load_tsv_file, h]
  · intro h; simp [load_tsv_file, h, parse_tsv]
  · intro header rest h; simp [load_tsv_file, h, parse_tsv]

/-- Witness for C6: a one-file file system; the missing transactions path
loads as `None`, the present users path loads with its header columns and row
order. -/
theorem c6_load_tsv_file_witness :
    load_tsv_file (fun p => if p = "input/users.csv" then
        some ["Customer ID\tCustomer Name", "1\tAlice"] else none)
      "input/transactions.csv" = none ∧
    load_tsv_file (fun p => if p = "input/users.csv" then
        some ["Customer ID\tCustomer Name", "1\tAlice"] else none)
      "input/users.csv"
      = some ⟨("Customer ID\tCustomer Name").splitOn "\t",
              [("1\tAlice").splitOn "\t"]⟩ :=
  ⟨(c6_load_tsv_file _ "input/transactions.csv").1 (by simp),
   (c6_load_tsv_file _ "input/users.csv").2.2 "Customer ID\tCustomer Name"
     ["1\tAlice"] (by simp)⟩

/-- C9 (symbolic model of the Fernet scheme): decrypting the encryption of a
document with the same key returns the original document; decrypting with any
non-matching key fails with `InvalidToken` rather than returning a document;
and any token that decrypts successfully under a key is an honest encryption
of the returned document under that key — hence a tampered blob (any token
that is not such an encryption) always fails. -/
theorem c9_fernet_round_trip :
    (∀ (key : FernetKey) (iv : List Nat) (ts : Nat) (doc : List Nat),
      fernetDecrypt key (fernetEncrypt key iv ts doc) = Except.ok doc) ∧
    (∀ (key key' : FernetKey) (iv : List Nat) (ts : Nat) (doc : List Nat),
      key' ≠ key → fernetDecrypt key' (fernetEncrypt key iv ts doc) =
        Except.error DecryptionError.invalidToken) ∧
    (∀ (key : FernetKey) (token : FernetToken) (doc : List Nat),
      fernetDecrypt key token = Except.ok doc →
      token = fernetEncrypt key token.iv token.timestamp doc) := by
  refine ⟨?_, ?_, ?_⟩
  · intro key iv ts doc
    simp [fernetEncrypt, fernetDecrypt]
  · intro key key' iv ts doc hne
    by_cases hs : key'.signKey = key.signKey
    · have he : ¬(key.encKey = key'.encKey) := by
        intro he
        exact hne (by cases key; cases key'; simp_all)
      simp [fernetEncrypt, fernetDecrypt, hs, he]
    · have hs' : ¬(key.signKey = key'.signKey) := fun h => hs h.symm
      simp [fernetEncrypt, fernetDecrypt, hs']
  · intro key token doc hok
    obtain ⟨v, ts, iv, ct, tag⟩ := token
    obtain ⟨k, iv', p⟩ := ct
    unfold fernetDecrypt at hok
    dsimp at hok ⊢
    by_cases hv : v = 128
    · by_cases htag : tag = AuthTag.hmacSha256 key.signKey
          (v, ts, iv, CipherText.aesCbc k iv' p)
      · by_cases hk : k = key.encKey ∧ iv' = iv
        · obtain ⟨hk1, hk2⟩ := hk
          rw [if_neg (not_not.mpr hv), if_neg (not_not.mpr htag),
            if_pos ⟨hk1, hk2⟩] at hok
          have hp : p = doc := by simpa using hok
          subst hk1 hk2 hv hp htag
          rfl
        · rw [if_neg (not_not.mpr hv), if_neg (not_not.mpr htag), if_neg hk] at hok
          exact Except.noConfusion hok
      · rw [if_neg (not_not.mpr hv), if_pos htag] at hok
        exact Except.noConfusion hok
    · rw [if_pos hv] at hok
      exact Except.noConfusion hok

/-- Witness for C9: a concrete key, IV, timestamp and document round-trip, and
decryption under a different key fails. -/
theorem c9_fernet_round_trip_witness :
    fernetDecrypt ⟨[1], [2]⟩ (fernetEncrypt ⟨[1], [2]⟩ [3] 7 [42]) = Except.ok [42] ∧
    fernetDecrypt ⟨[9], [2]⟩ (fernetEncrypt ⟨[1], [2]⟩ [3] 7 [42]) =
      Except.error DecryptionError.invalidToken :=
  ⟨c9_fernet_round_trip.1 ⟨[1], [2]⟩ [3] 7 [42],
   c9_fernet_round_trip.2.1 ⟨[1], [2]⟩ ⟨[9], [2]⟩ [3] 7 [42] (by decide)⟩

theorem dedupAux_congr_seen {α : Type} [DecidableEq α] :
    ∀ (l seen₁ seen₂ : List α), (∀ a ∈ l, a ∈ seen₁ ↔ a ∈ seen₂) →
      dedupAux seen₁ l = dedupAux seen₂ l := by
  intro l
  induction l with
  | nil => intro _ _ _; rfl
  | cons x xs ih =>
    intro s1 s2 h
    have hx := h x (List.mem_cons_self x xs)
    by_cases hx1 : x ∈ s1
    · simp only [dedupAux, if_pos hx1, if_pos (hx.mp hx1)]
      exact ih s1 s2 (fun a ha => h a (List.mem_cons_of_mem _ ha))
    · simp only [dedupAux, if_neg hx1, if_neg (fun h2 => hx1 (hx.mpr h2))]
      congr 1
      refine ih (x :: s1) (x :: s2) ?_
      intro a ha
      rw [List.mem_cons, List.mem_cons, h a (List.mem_cons_of_mem _ ha)]

theorem filter_dedupAux {α : Type} [DecidableEq α] (p : α → Bool) :
    ∀ (l seen : List α), (dedupAux seen l).filter p = dedupAux seen (l.filter p) := by
  intro l
  induction l with
  | nil => intro seen; rfl
  | cons x xs ih =>
    intro seen
    by_cases hx : x ∈ seen
    · by_cases hp : p x = true
      · rw [List.filter_cons_of_pos hp]
        simp only [dedupAux, if_pos hx]
        exact ih seen
      · rw [List.filter_cons_of_neg hp]
        simp only [dedupAux, if_pos hx]
        exact ih seen
    · by_cases hp : p x = true
      · rw [List.filter_cons_of_pos hp]
        simp only [dedupAux, if_neg hx]
        rw [List.filter_cons_of_pos hp]
        congr 1
        exact ih (x :: seen)
      · rw [List.filter_cons_of_neg hp]
        simp only [dedupAux, if_neg hx]
        rw [List.filter_cons_of_neg hp, ih (x :: seen)]
        refine dedupAux_congr_seen _ _ _ ?_
        intro a ha
        have hpa : p a = true := List.of_mem_filter ha
        rw [List.mem_cons]
        constructor
        · rintro (rfl | h1)
          · exact absurd hpa hp
          · exact h1
        · exact Or.inr

theorem filter_remove_duplicates {α : Type} [DecidableEq α] (p : α → Bool) (l : List α) :
    remove_duplicates (l.filter p) = (remove_duplicates l).filter p :=
  (filter_dedupAux p l []).symm

theorem mem_of_getLast_eq_some {α : Type} {l : List α} {a : α}
    (h : l.getLast? = some a) : a ∈ l := by
  rcases List.mem_getLast?_eq_getLast (show a ∈ l.getLast? by rw [h]; rfl) with ⟨hne, rfl⟩
  exact List.getLast_mem hne

theorem filterMap_cid_filter_isSome :
    ∀ m : List URow, (m.filter (fun r => r.cid.isSome)).filterMap (fun r => r.cid)
      = m.filterMap (fun r => r.cid) := by
  intro m
  induction m with
  | nil => rfl
  | cons r rs ih =>
    cases hc : r.cid with
    | none =>
      rw [List.filter_cons_of_neg (by simp [hc])]
      rw [List.filterMap_cons, hc, ih]
    | some k =>
      rw [List.filter_cons_of_pos (by simp [hc])]
      rw [List.filterMap_cons, List.filterMap_cons, hc, ih]

theorem map_cid_filterMap (d : List URow) :
    ∀ ks : List Int, (∀ k ∈ ks, ((d.filter (fun r => r.cid = some k)).getLast?).isSome) →
      ((ks.filterMap (fun k => ((d.filter (fun r => r.cid = some k)).getLast?).map
        (fun r => CRow.mk k r.name r.email))).map (fun c => c.cid)) = ks := by
  intro ks
  induction ks with
  | nil => intro _; rfl
  | cons k ks ih =>
    intro h
    obtain ⟨r, hr⟩ := Option.isSome_iff_exists.mp (h k (List.mem_cons_self k ks))
    simp only [List.filterMap_cons, hr, Option.map_some', List.map_cons]
    rw [ih (fun a ha => h a (List.mem_cons_of_mem _ ha))]

theorem collapse_users_map_cid (l : List URow) :
    (collapse_users l).map (fun c => c.cid)
      = sortedKeys ((remove_duplicates l).filterMap (fun r => r.cid)) := by
  refine map_cid_filterMap (remove_duplicates l) _ ?_
  intro k hk
  rcases List.mem_filterMap.mp ((mem_sortedKeys _).mp hk) with ⟨r, hr, hcid⟩
  have hmem : r ∈ (remove_duplicates l).filter (fun r => r.cid = some k) :=
    List.mem_filter.mpr ⟨hr, by simp [hcid]⟩
  exact List.getLast?_isSome.mpr (List.ne_nil_of_mem hmem)

theorem collapse_users_sorted (l : List URow) :
    ((collapse_users l).map (fun c => c.cid)).Pairwise (· < ·) := by
  rw [collapse_users_map_cid]
  exact sorted_sortedKeys _

theorem collapse_users_keys (l : List URow) (k : Int) :
    k ∈ (collapse_users l).map (fun c => c.cid) ↔ some k ∈ l.map (fun r => r.cid) := by
  rw [collapse_users_map_cid, mem_sortedKeys, List.mem_filterMap]
  constructor
  · rintro ⟨r, hr, hcid⟩
    exact List.mem_map.mpr ⟨r, (mem_remove_duplicates l).mp hr, hcid⟩
  · intro hm
    rcases List.mem_map.mp hm with ⟨r, hr, hcid⟩
    exact ⟨r, (mem_remove_duplicates l).mpr hr, hcid⟩

theorem collapse_users_row_src (l : List URow) :
    ∀ c ∈ collapse_users l, ∃ r ∈ l,
      r.cid = some c.cid ∧ r.name = c.name ∧ r.email = c.email := by
  intro c hc
  rcases List.mem_filterMap.mp hc with ⟨k, _, hfk⟩
  rcases Option.map_eq_some'.mp hfk with ⟨r, hr, hrc⟩
  subst hrc
  have hmem := List.mem_filter.mp (mem_of_getLast_eq_some hr)
  refine ⟨r, (mem_remove_duplicates l).mp hmem.1, ?_, rfl, rfl⟩
  simpa using hmem.2

theorem collapse_users_last_row (l : List URow) :
    ∀ c ∈ collapse_users l, ∃ r : URow,
      (remove_duplicates (l.filter (fun x => x.cid = some c.cid))).getLast? = some r ∧
      r.name = c.name ∧ r.email = c.email := by
  intro c hc
  rcases List.mem_filterMap.mp hc with ⟨k, _, hfk⟩
  rcases Option.map_eq_some'.mp hfk with ⟨r, hr, hrc⟩
  subst hrc
  refine ⟨r, ?_, rfl, rfl⟩
  show (remove_duplicates (l.filter (fun x => x.cid = some k))).getLast? = some r
  rw [filter_remove_duplicates]
  exact hr

theorem collapse_users_dropna (l : List URow) :
    collapse_users (l.filter (fun r => r.cid.isSome)) = collapse_users l := by
  unfold collapse_users
  rw [filter_remove_duplicates, filterMap_cid_filter_isSome]
  congr 1
  funext k
  congr 2
  rw [List.filter_filter]
  refine List.filter_congr ?_
  intro r _
  by_cases h : r.cid = some k
  · simp [h]
  · simp [h]

/-- C3 counterexample: on the users rows
[(1,"A","a@x"), (1,"B","b@x"), (1,"A","a@x")] the last-occurring row for
Customer ID 1 in source-file order is (1,"A","a@x"), but the collapse step
first removes exact-duplicate rows, so it keeps (1,"B","b@x") — the claim's
"last-occurring Customer Name and Customer Email in source order" is false
here. -/
theorem c3_user_collapse_counterexample :
    collapse_users
        [⟨some 1, "A", "a@x", ""⟩, ⟨some 1, "B", "b@x", ""⟩, ⟨some 1, "A", "a@x", ""⟩]
      = [⟨1, "B", "b@x"⟩] ∧
    [⟨some 1, "A", "a@x", ""⟩, ⟨some 1, "B", "b@x", ""⟩,
        (⟨some 1, "A", "a@x", ""⟩ : URow)].getLast? = some ⟨some 1, "A", "a@x", ""⟩ ∧
    collapse_users
        [⟨some 1, "A", "a@x", ""⟩, ⟨some 1, "B", "b@x", ""⟩, ⟨some 1, "A", "a@x", ""⟩]
      ≠ [⟨1, "A", "a@x"⟩] :=
  ⟨by decide, by decide, by decide⟩

/-- C3 (amended): the user-collapse step emits exactly one row per (non-null)
Customer ID present in the input, and for each Customer ID the kept Customer
Name and Customer Email are those of the last-occurring row for that ID after
exact-duplicate-row removal (the code deduplicates the frame before grouping,
so a trailing row that exactly repeats an earlier row does not count as
"last"; when no rows for an ID are exact duplicates this is the source-order
last row); in particular for input rows [(1,"A","a@x"), (1,"B","b@x")] in that
order the output is the single row (1,"B","b@x"). -/
theorem c3_user_collapse_last (users_df : List URow) :
    ((collapse_users users_df).map (fun c => c.cid)).Nodup ∧
    (∀ k : Int, k ∈ (collapse_users users_df).map (fun c => c.cid) ↔
      some k ∈ users_df.map (fun r => r.cid)) ∧
    (∀ c ∈ collapse_users users_df, ∃ r : URow,
      (remove_duplicates (users_df.filter (fun x => x.cid = some c.cid))).getLast?
        = some r ∧ r.name = c.name ∧ r.email = c.email) ∧
    collapse_users [⟨some 1, "A", "a@x", ""⟩, ⟨some 1, "B", "b@x", ""⟩]
      = [⟨1, "B", "b@x"⟩] :=
  ⟨pairwise_imp_of_mem (fun _ _ b _ hab heq => absurd (heq ▸ hab) (lt_irrefl b))
     (collapse_users_sorted users_df),
   collapse_users_keys users_df,
   collapse_users_last_row users_df,
   by decide⟩

/-- Witness for C3 (amended) on the claim's concrete users table. -/
theorem c3_user_collapse_last_witness :
    (1 : Int) ∈ (collapse_users
      [⟨some 1, "A", "a@x", ""⟩, ⟨some 1, "B", "b@x", ""⟩]).map (fun c => c.cid) :=
  ((c3_user_collapse_last
      [⟨some 1, "A", "a@x", ""⟩, ⟨some 1, "B", "b@x", ""⟩]).2.1 1).mpr (by decide)

/-- C10: the user-collapse output carries exactly the three columns
Customer ID, Customer Name and Customer Email (its rows are `CRow` values
whose fields all originate in those columns of an input row; every other
input column is discarded), input rows whose Customer ID is null are silently
dropped (removing them beforehand does not change the result), and the output
rows are ordered by strictly ascending Customer ID rather than by input
order. -/
theorem c10_user_collapse_columns (users_df : List URow) :
    collapse_users (users_df.filter (fun r => r.cid.isSome)) = collapse_users users_df ∧
    ((collapse_users users_df).map (fun c => c.cid)).Pairwise (· < ·) ∧
    (∀ c ∈ collapse_users users_df, ∃ r ∈ users_df,
      r.cid = some c.cid ∧ r.name = c.name ∧ r.email = c.email) :=
  ⟨collapse_users_dropna users_df, collapse_users_sorted users_df,
   collapse_users_row_src users_df⟩

/-- Witness for C10 on a table with a null Customer ID and descending input
order. -/
theorem c10_user_collapse_columns_witness :
    collapse_users ([⟨some 2, "B", "b@x", ""⟩, ⟨none, "X", "x@x", ""⟩,
        ⟨some 1, "A", "a@x", ""⟩].filter (fun r => r.cid.isSome))
      = collapse_users [⟨some 2, "B", "b@x", ""⟩, ⟨none, "X", "x@x", ""⟩,
        ⟨some 1, "A", "a@x", ""⟩] ∧
    ∃ r ∈ [⟨some 2, "B", "b@x", ""⟩, ⟨none, "X", "x@x", ""⟩,
        (⟨some 1, "A", "a@x", ""⟩ : URow)],
      r.cid = some (CRow.mk 1 "A" "a@x").cid ∧ r.name = (CRow.mk 1 "A" "a@x").name ∧
        r.email = (CRow.mk 1 "A" "a@x").email :=
  ⟨(c10_user_collapse_columns [⟨some 2, "B", "b@x", ""⟩, ⟨none, "X", "x@x", ""⟩,
      ⟨some 1, "A", "a@x", ""⟩]).1,
   (c10_user_collapse_columns [⟨some 2, "B", "b@x", ""⟩, ⟨none, "X", "x@x", ""⟩,
      ⟨some 1, "A", "a@x", ""⟩]).2.2 (CRow.mk 1 "A" "a@x") (by decide)⟩

/-- C5: the orchestration does not skip downstream steps when a raw load is
absent — with any one of the three inputs `None`, the run crashes (modelled as
`Except.error` at the first unconditional use of the missing table) instead of
skipping the steps that depend on it: the aggregation crashes without
transactions, the merge crashes without users, and the persist step crashes
without products. -/
theorem c5_pipeline_crashes_on_missing_input :
    run_pipeline (α := List String) (some [["p1"]]) none
        (some [⟨some 1, "A", "a@x", ""⟩])
      = Except.error "calculate_total_spending_per_user: transactions_df is None" ∧
    run_pipeline (α := List String) (some [["p1"]]) (some [(1, 100)]) none
      = Except.error "add_total_spending_to_users: users_df is None" ∧
    run_pipeline (α := List String) none (some [(1, 100)])
        (some [⟨some 1, "A", "a@x", ""⟩])
      = Except.error "save_to_postgres: products_df is None" :=
  ⟨rfl, rfl, rfl⟩

end StreamETL
